import Mathlib

/-!
Shallow embedding of the in-memory file system of sys_traits
(src/impls/in_memory.rs) for the Unix path layout (no Windows drive
prefixes).  Paths are lists of components as produced by Rust's
Path::components; byte strings are lists of naturals; SystemTime is a
natural number.  The ambient real clock and the external entropy source
are passed as explicit parameters.  Rust mutations through a held
&mut Directory reference are modelled by the pair getDirEntries and
modifyDirEntries, which re-walk the key path the reference was obtained
from; this coincides with the reference semantics because the walk only
inspects entry names, which the modifications preserve.
-/

namespace InMemFs

/-- Path components, mirroring std::path::Component without Prefix. -/
inductive Comp where
  | root
  | cur
  | parent
  | normal (s : String)
deriving DecidableEq, Repr

/-- The string Rust compares against entry names for a component
(RootDir is looked up as the empty name, line 195 of in_memory.rs). -/
def keyOf : Comp → String
  | Comp.root => ""
  | Comp.cur => "."
  | Comp.parent => ".."
  | Comp.normal s => s

/-- A PathBuf as built by normalize_path: an absolute flag plus the
pushed normal components. -/
structure NPath where
  abs : Bool
  comps : List String
deriving DecidableEq, Repr

/-- One step of the normalize_path fold: PathBuf::push of a RootDir
replaces the whole path, CurDir is dropped, ParentDir pops (a no-op at
the root), Normal is pushed. -/
def normStep (acc : NPath) : Comp → NPath
  | Comp.root => ⟨true, []⟩
  | Comp.cur => acc
  | Comp.parent => ⟨acc.abs, acc.comps.dropLast⟩
  | Comp.normal s => ⟨acc.abs, acc.comps ++ [s]⟩

/-- normalize_path (in_memory.rs lines 1066 to 1092), Unix layout. -/
def normalize_path (p : List Comp) : NPath :=
  p.foldl normStep ⟨false, []⟩

/-- The component list of an NPath, i.e. what Path::components yields on
the built PathBuf when every stored string is a plain file name. -/
def toComps (p : NPath) : List Comp :=
  (if p.abs then [Comp.root] else []) ++ p.comps.map Comp.normal

/-- Re-parsing one stored string as Path::components would: empty and
dot strings disappear, a dot-dot string reads back as ParentDir. -/
def reparseComp (s : String) : Option Comp :=
  if s = "" ∨ s = "." then none
  else if s = ".." then some Comp.parent
  else some (Comp.normal s)

/-- Path::components applied to the PathBuf denoted by an NPath. -/
def reparse (p : NPath) : List Comp :=
  (if p.abs then [Comp.root] else []) ++ p.comps.filterMap reparseComp

/-- A component that Rust's Path::components can actually produce:
a Normal component is never empty, a dot, or a dot-dot. -/
def wfComp : Comp → Bool
  | Comp.normal s => decide (s ≠ "" ∧ s ≠ "." ∧ s ≠ "..")
  | _ => true

def wfPath (p : List Comp) : Bool :=
  p.all wfComp

/-- Parent of a path as used behind the non-empty guard
(match path.parent: Some p with p non-empty). -/
def NPath.parentNE (p : NPath) : Option NPath :=
  match p.comps with
  | [] => none
  | cs => if p.abs = false ∧ cs.length = 1 then none else some ⟨p.abs, cs.dropLast⟩

/-- Plain Path::parent, possibly the empty relative path. -/
def NPath.parentAll (p : NPath) : Option NPath :=
  match p.comps with
  | [] => none
  | cs => some ⟨p.abs, cs.dropLast⟩

/-- Path::file_name of a normalized path. -/
def NPath.fileNameOf (p : NPath) : Option String :=
  p.comps.getLast?

/-- Byte buffer, mode and timestamps of a file (struct FileInner). -/
structure FileInner where
  created : Nat
  modified : Nat
  data : List Nat
  mode : Nat
deriving DecidableEq, Repr

/-- enum DirectoryEntry: File, Directory and Symlink nodes.  Directory
children are ordered; a Symlink stores its raw target path verbatim. -/
inductive Entry where
  | file (name : String) (inner : FileInner)
  | directory (name : String) (created : Nat) (modified : Nat) (entries : List Entry)
  | symlink (name : String) (target : List Comp) (created : Nat) (modified : Nat)
deriving Repr

def Entry.name : Entry → String
  | Entry.file n _ => n
  | Entry.directory n _ _ _ => n
  | Entry.symlink n _ _ _ => n

def dummyEntry : Entry :=
  Entry.file "" ⟨0, 0, [], 0⟩

/-- Error kinds used by the module (std::io::ErrorKind subset). -/
inductive EKind where
  | notFound
  | alreadyExists
  | invalidInput
  | other
deriving DecidableEq, Repr

structure Err where
  kind : EKind
  msg : String
deriving DecidableEq, Repr

/-- Lexicographic comparison of character lists by scalar value; on
valid UTF-8 this is exactly Rust's byte-lexicographic str order. -/
def strLtList : List Char → List Char → Bool
  | [], [] => false
  | [], _ :: _ => true
  | _ :: _, [] => false
  | a :: as, b :: bs =>
    if a.val < b.val then true
    else if b.val < a.val then false
    else strLtList as bs

def strLt (a b : String) : Bool :=
  strLtList a.data b.data

/-- str::cmp. -/
def strCmp (a b : String) : Ordering :=
  if strLt a b then Ordering.lt else if strLt b a then Ordering.gt else Ordering.eq

/-- Result of slice::binary_search_by. -/
inductive SR where
  | ok (i : Nat)
  | err (i : Nat)
deriving DecidableEq, Repr

/-- The loop of core's slice::binary_search_by on a list of names;
fuel bounds the iteration count (the interval shrinks each round, so
the list length is enough fuel). -/
def bsgo (names : List String) (key : String) : Nat → Nat → Nat → SR
  | 0, left, _ => SR.err left
  | fuel + 1, left, right =>
    if left < right then
      let mid := left + (right - left) / 2
      match strCmp (names.getD mid "") key with
      | Ordering.lt => bsgo names key fuel (mid + 1) right
      | Ordering.gt => bsgo names key fuel left mid
      | Ordering.eq => SR.ok mid
    else SR.err left

/-- entries.binary_search_by(|e| e.name().cmp(&comp)). -/
def binary_search_by (key : String) (entries : List Entry) : SR :=
  bsgo (entries.map Entry.name) key entries.length 0 entries.length

-- Number of symlink nodes in the tree.
mutual
def symCountE : Entry → Nat
  | Entry.file _ _ => 0
  | Entry.symlink _ _ _ _ => 1
  | Entry.directory _ _ _ es => symCountL es
def symCountL : List Entry → Nat
  | [] => 0
  | e :: rest => symCountE e + symCountL rest
end

/-- Result of lookup_entry_detail_no_follow. -/
inductive NFRes where
  | err (e : Err)
  | notFound (path : List Comp)
  | symlinkHit (current_path : List Comp) (target_path : List Comp)
      (name : String) (target : List Comp)
  | found (path : List Comp) (entry : Entry)

/-- The component walk of lookup_entry_detail_no_follow (lines 181 to
253): acc is the final_path accumulator.  On hitting a symlink the
target path is normalize_path(current_path.join(target)); joining a
path that starts with RootDir replaces the accumulated part, which is
exactly what normalize_path does with a RootDir component, so the join
is plain list append here. -/
def noFollowGo (entries : List Entry) (acc : List Comp) : List Comp → NFRes
  | [] => NFRes.notFound acc
  | c :: rest =>
    let newAcc := acc ++ [c]
    match binary_search_by (keyOf c) entries with
    | SR.err _ => NFRes.notFound (newAcc ++ rest)
    | SR.ok pos =>
      match entries.getD pos dummyEntry with
      | Entry.directory n cr mo es =>
        if rest = [] then NFRes.found newAcc (Entry.directory n cr mo es)
        else noFollowGo es newAcc rest
      | Entry.file n fi =>
        if rest = [] then NFRes.found newAcc (Entry.file n fi)
        else NFRes.err ⟨EKind.other, "Path leads into a file or symlink"⟩
      | Entry.symlink n tgt _ _ =>
        NFRes.symlinkHit newAcc (toComps (normalize_path (newAcc ++ tgt))) n tgt

def lookup_entry_detail_no_follow (root : List Entry) (p : List Comp) : NFRes :=
  if p = [] then NFRes.err ⟨EKind.notFound, "Empty path"⟩
  else noFollowGo root [] p

/-- Result of lookup_entry_detail. -/
inductive LRes where
  | err (e : Err)
  | notFound (path : List Comp)
  | found (path : List Comp) (entry : Entry)

/-- The symlink-following loop of lookup_entry_detail (lines 147 to
179) with explicit fuel; seen is the HashSet of visited paths (the
starting path is only inserted once a symlink is first hit). -/
def lookup_entry_detail_go (root : List Entry) :
    Nat → List (List Comp) → List Comp → Option LRes
  | 0, _, _ => none
  | fuel + 1, seen, p =>
    match lookup_entry_detail_no_follow root p with
    | NFRes.err e => some (LRes.err e)
    | NFRes.notFound q => some (LRes.notFound q)
    | NFRes.found q e => some (LRes.found q e)
    | NFRes.symlinkHit cp tp _ _ =>
      let seen1 := if seen = [] then [cp] else seen
      if tp ∈ seen1 then some (LRes.err ⟨EKind.other, "Symlink loop detected"⟩)
      else lookup_entry_detail_go root fuel (tp :: seen1) tp

/-- Fuel that provably suffices (theorem c3): one iteration per symlink
node plus the initial walk and the final returning walk. -/
def lookup_fuel (root : List Entry) : Nat :=
  symCountL root + 2

/-- lookup_entry_detail.  The Rust loop has no fuel; lookup_fuel is
proved sufficient for every tree and path Rust can be handed, and the
default value is the loop error the Rust code would produce on a
repeated path. -/
def lookup_entry_detail (root : List Entry) (p : List Comp) : LRes :=
  (lookup_entry_detail_go root (lookup_fuel root) [] p).getD
    (LRes.err ⟨EKind.other, "Symlink loop detected"⟩)

/-- lookup_entry (lines 134 to 145). -/
def lookup_entry (root : List Entry) (p : List Comp) :
    Except Err (List Comp × Entry) :=
  match lookup_entry_detail root p with
  | LRes.found q e => Except.ok (q, e)
  | LRes.notFound _ => Except.error ⟨EKind.notFound, "Path not found"⟩
  | LRes.err e => Except.error e

/-- The mutable re-walk of find_directory_mut (lines 273 to 319) on an
already resolved component list.  It returns the updated tree, the key
path of the directory the &mut reference points at, and that
directory's entries.  With create false no insertion happens, so an
error leaves the tree untouched; with create true, once a directory has
been freshly inserted every deeper component is also freshly inserted,
so an error again implies the tree was not modified. -/
def findDirGo (create : Bool) (time : Nat) :
    List Entry → List Comp → Except Err (List Entry × List String × List Entry)
  | _, [] => Except.error ⟨EKind.notFound, "Path not found"⟩
  | entries, c :: rest =>
    let key := keyOf c
    match binary_search_by key entries with
    | SR.ok pos =>
      match entries.getD pos dummyEntry with
      | Entry.directory n cr mo es =>
        if rest = [] then Except.ok (entries, [key], es)
        else
          match findDirGo create time es rest with
          | Except.error e => Except.error e
          | Except.ok (es2, ks, dirEs) =>
            Except.ok (entries.set pos (Entry.directory n cr mo es2), key :: ks, dirEs)
      | _ => Except.error ⟨EKind.other, "Path leads into a file or symlink"⟩
    | SR.err ipos =>
      if create then
        let entries2 := entries.insertIdx ipos (Entry.directory key time time [])
        if rest = [] then Except.ok (entries2, [key], [])
        else
          match findDirGo create time [] rest with
          | Except.error e => Except.error e
          | Except.ok (es2, ks, dirEs) =>
            Except.ok (entries2.set ipos (Entry.directory key time time es2), key :: ks, dirEs)
      else Except.error ⟨EKind.notFound, "Path not found"⟩

/-- find_directory_mut (lines 255 to 322): resolve symlinks first, then
re-walk mutably. -/
def find_directory_mut (root : List Entry) (p : List Comp) (create : Bool)
    (time : Nat) : Except Err (List Entry × List String × List Entry) :=
  match lookup_entry_detail root p with
  | LRes.err e => Except.error e
  | LRes.found q _ =>
    if q = [] then Except.error ⟨EKind.notFound, "Empty path"⟩
    else findDirGo create time root q
  | LRes.notFound q =>
    if q = [] then Except.error ⟨EKind.notFound, "Empty path"⟩
    else findDirGo create time root q

/-- Reading through a held &mut Directory reference: the entries of the
directory at the given key path. -/
def getDirEntries : List Entry → List String → Option (List Entry)
  | _, [] => none
  | entries, k :: rest =>
    match binary_search_by k entries with
    | SR.ok pos =>
      match entries.getD pos dummyEntry with
      | Entry.directory _ _ _ es =>
        if rest = [] then some es else getDirEntries es rest
      | _ => none
    | SR.err _ => none

/-- Writing through a held &mut Directory reference: apply f to the
entries of the directory at the given key path (identity if the walk
fails, which never happens for key paths produced by findDirGo). -/
def modifyDirEntries : List Entry → List String → (List Entry → List Entry) → List Entry
  | entries, [], _ => entries
  | entries, k :: rest, f =>
    match binary_search_by k entries with
    | SR.ok pos =>
      match entries.getD pos dummyEntry with
      | Entry.directory n cr mo es =>
        entries.set pos
          (Entry.directory n cr mo (if rest = [] then f es else modifyDirEntries es rest f))
      | _ => entries
    | SR.err _ => entries

/-- struct InMemorySysInner (env vars kept as an association list). -/
structure Sys where
  system_root : List Entry
  cwd : NPath
  thread_sleep_enabled : Bool
  random_seed : Option Nat
  envs : List (String × String)
  time : Option Nat

def Sys.default : Sys :=
  ⟨[], ⟨true, []⟩, true, none, [], none⟩

/-- time_now: the fixed clock if configured, else the ambient real
clock reading passed in as now. -/
def time_now (s : Sys) (now : Nat) : Nat :=
  s.time.getD now

/-- to_absolute_path (lines 122 to 128). -/
def to_absolute_path (s : Sys) (p : List Comp) : NPath :=
  if p.head? = some Comp.root then normalize_path p
  else normalize_path (toComps s.cwd ++ p)

/-- The OpenOptions fields the in-memory backend reads. -/
structure OpenOptions where
  read : Bool
  write : Bool
  create : Bool
  truncate : Bool
  append : Bool
  create_new : Bool
  mode : Option Nat
deriving DecidableEq, Repr

/-- struct InMemoryFile: the shared file buffer plus the private
cursor.  The buffer is behind an Arc in Rust, co-owned with the tree
node; operations here return the updated buffer explicitly. -/
structure InMemoryFile where
  inner : FileInner
  pos : Nat
deriving DecidableEq, Repr

/-- base_fs_open (lines 546 to 632), additionally returning the key
path of the parent directory and the file name so that callers that
keep writing through the returned Arc (base_fs_write) can update the
tree node the buffer is shared with. -/
def base_fs_open_core (s : Sys) (now : Nat) (p : List Comp)
    (options : OpenOptions) :
    Except Err (InMemoryFile × List String × String × Sys) :=
  let tnow := time_now s now
  let path := to_absolute_path s p
  match NPath.parentNE path with
  | none => Except.error ⟨EKind.other, "Cannot open root or invalid path"⟩
  | some parent_path =>
    match find_directory_mut s.system_root (toComps parent_path) false tnow with
    | Except.error e => Except.error e
    | Except.ok (root0, ks, dirEs) =>
      match NPath.fileNameOf path with
      | none => Except.error ⟨EKind.other, "No file name found"⟩
      | some file_name =>
        match binary_search_by file_name dirEs with
        | SR.ok pos =>
          match dirEs.getD pos dummyEntry with
          | Entry.file fname fi =>
            if options.create_new then
              Except.error ⟨EKind.alreadyExists, "File already exists (create_new=true)"⟩
            else
              let fi2 := if options.truncate then { fi with data := [], modified := tnow } else fi
              let root2 := modifyDirEntries root0 ks
                (fun es => es.set pos (Entry.file fname fi2))
              Except.ok (⟨fi2, if options.append then fi2.data.length else 0⟩,
                ks, fname, { s with system_root := root2 })
          | _ => Except.error ⟨EKind.other, "Path is not a file"⟩
        | SR.err ipos =>
          if options.create then
            let fi : FileInner := ⟨tnow, tnow, [], options.mode.getD 438⟩
            let root2 := modifyDirEntries root0 ks
              (fun es => es.insertIdx ipos (Entry.file file_name fi))
            Except.ok (⟨fi, if options.append then ([] : List Nat).length else 0⟩,
              ks, file_name, { s with system_root := root2 })
          else Except.error ⟨EKind.notFound, "File not found"⟩

def base_fs_open (s : Sys) (now : Nat) (p : List Comp) (options : OpenOptions) :
    Except Err (InMemoryFile × Sys) :=
  match base_fs_open_core s now p options with
  | Except.error e => Except.error e
  | Except.ok (f, _, _, s2) => Except.ok (f, s2)

/-- base_fs_create_dir_all (lines 449 to 456). -/
def base_fs_create_dir_all (s : Sys) (now : Nat) (p : List Comp) :
    Except Err Sys :=
  let abs := to_absolute_path s p
  match find_directory_mut s.system_root (toComps abs) true (time_now s now) with
  | Except.error e => Except.error e
  | Except.ok (root2, _, _) => Except.ok { s with system_root := root2 }

/-- Updating the shared buffer of the file named fname in a directory,
as writing through the Arc obtained from open does. -/
def setFileData (fname : String) (data : List Nat) (tnow : Nat)
    (es : List Entry) : List Entry :=
  match binary_search_by fname es with
  | SR.ok pos =>
    match es.getD pos dummyEntry with
    | Entry.file n fi => es.set pos (Entry.file n { fi with data := data, modified := tnow })
    | _ => es
  | SR.err _ => es

/-- The OpenOptions literal base_fs_write uses (lines 926 to 934). -/
def writeOpenOptions : OpenOptions :=
  ⟨false, true, true, true, false, false, none⟩

/-- base_fs_write (lines 924 to 943): open with create and truncate,
then clear the shared buffer, append the data and refresh the modified
time. -/
def base_fs_write (s : Sys) (now : Nat) (p : List Comp) (data : List Nat) :
    Except Err Sys :=
  let tnow := time_now s now
  match base_fs_open_core s now p writeOpenOptions with
  | Except.error e => Except.error e
  | Except.ok (_, ks, fname, s2) =>
    let root2 := modifyDirEntries s2.system_root ks (setFileData fname data tnow)
    Except.ok { s2 with system_root := root2 }

/-- base_fs_remove_file (lines 719 to 754). -/
def base_fs_remove_file (s : Sys) (now : Nat) (p : List Comp) :
    Except Err Sys :=
  let path := to_absolute_path s p
  match NPath.parentNE path with
  | none => Except.error ⟨EKind.other, "Cannot remove root or invalid path"⟩
  | some parent_path =>
    match find_directory_mut s.system_root (toComps parent_path) false (time_now s now) with
    | Except.error e => Except.error e
    | Except.ok (root0, ks, dirEs) =>
      match NPath.fileNameOf path with
      | none => Except.error ⟨EKind.other, "No file name found"⟩
      | some file_name =>
        match binary_search_by file_name dirEs with
        | SR.ok pos =>
          match dirEs.getD pos dummyEntry with
          | Entry.file _ _ =>
            let root2 := modifyDirEntries root0 ks (fun es => es.eraseIdx pos)
            Except.ok { s with system_root := root2 }
          | _ => Except.error ⟨EKind.other, "Not a file"⟩
        | SR.err _ => Except.error ⟨EKind.notFound, "File not found"⟩

/-- base_fs_rename (lines 756 to 856).  The result pairs the optional
error with the state observable after the call: Rust mutates through
&mut and returns errors without undoing whatever already happened. -/
def base_fs_rename (s : Sys) (now : Nat) (fromP toP : List Comp) :
    Option Err × Sys :=
  let tnow := time_now s now
  let fromA := to_absolute_path s fromP
  let toA := to_absolute_path s toP
  match NPath.parentNE fromA with
  | none => (some ⟨EKind.other, "Cannot rename root or invalid path"⟩, s)
  | some from_parent_path =>
  match NPath.fileNameOf fromA with
  | none => (some ⟨EKind.other, "No source file name found"⟩, s)
  | some from_file_name =>
  match find_directory_mut s.system_root (toComps from_parent_path) false tnow with
  | Except.error e => (some e, s)
  | Except.ok (root0, fpKeys, fpEntries) =>
  match binary_search_by from_file_name fpEntries with
  | SR.err _ => (some ⟨EKind.notFound, "Source file not found"⟩, s)
  | SR.ok from_idx =>
  let file_entry := fpEntries.getD from_idx dummyEntry
  let root1 := modifyDirEntries root0 fpKeys (fun es => es.eraseIdx from_idx)
  let restored := modifyDirEntries root1 fpKeys (fun es => es.insertIdx from_idx file_entry)
  match NPath.parentNE toA with
  | none =>
    (some ⟨EKind.other, "Cannot rename to root or invalid path"⟩,
     { s with system_root := restored })
  | some to_parent_path =>
  match NPath.fileNameOf toA with
  | none =>
    (some ⟨EKind.other, "No destination file name found"⟩,
     { s with system_root := restored })
  | some to_file_name =>
  match find_directory_mut root1 (toComps to_parent_path) true tnow with
  | Except.error e => (some e, { s with system_root := root1 })
  | Except.ok (root2, tpKeys, tpEntries) =>
  match file_entry with
  | Entry.file fname fi =>
    match binary_search_by to_file_name tpEntries with
    | SR.ok pos =>
      match tpEntries.getD pos dummyEntry with
      | Entry.directory _ _ _ _ =>
        match find_directory_mut root2 (toComps from_parent_path) false tnow with
        | Except.error e => (some e, { s with system_root := root2 })
        | Except.ok (root3, fpKeys2, _) =>
          let root4 := modifyDirEntries root3 fpKeys2
            (fun es => es.insertIdx from_idx (Entry.file fname fi))
          (some ⟨EKind.other, "Cannot rename to a directory"⟩,
           { s with system_root := root4 })
      | _ =>
        let root4 := modifyDirEntries root2 tpKeys
          (fun es => es.set pos (Entry.file to_file_name fi))
        (none, { s with system_root := root4 })
    | SR.err ipos =>
      let root4 := modifyDirEntries root2 tpKeys
        (fun es => es.insertIdx ipos (Entry.file to_file_name fi))
      (none, { s with system_root := root4 })
  | _ =>
    match find_directory_mut root2 (toComps from_parent_path) false tnow with
    | Except.error e => (some e, { s with system_root := root2 })
    | Except.ok (root3, fpKeys2, _) =>
      let root4 := modifyDirEntries root3 fpKeys2
        (fun es => es.insertIdx from_idx file_entry)
      (some ⟨EKind.other, "Cannot rename directories or symlinks here"⟩,
       { s with system_root := root4 })

/-- base_fs_symlink_file (lines 868 to 922); the unwrap panics on a
parentless or nameless link path are modelled as errors (they abort the
operation before any mutation). -/
def base_fs_symlink_file (s : Sys) (now : Nat) (original linkP : List Comp) :
    Except Err Sys :=
  let time := time_now s now
  let link := to_absolute_path s linkP
  match NPath.parentAll link with
  | none => Except.error ⟨EKind.other, "panicked: link path has no parent"⟩
  | some parent_path =>
    match find_directory_mut s.system_root (toComps parent_path) false time with
    | Except.error e => Except.error e
    | Except.ok (root0, ks, dirEs) =>
      match NPath.fileNameOf link with
      | none => Except.error ⟨EKind.other, "panicked: link path has no file name"⟩
      | some file_name =>
        match binary_search_by file_name dirEs with
        | SR.ok overwrite_pos =>
          match dirEs.getD overwrite_pos dummyEntry with
          | Entry.directory _ _ _ _ =>
            Except.error ⟨EKind.alreadyExists, "Directory already exists"⟩
          | _ =>
            let root2 := modifyDirEntries root0 ks (fun es =>
              es.set overwrite_pos (Entry.symlink file_name original time time))
            Except.ok { s with system_root := root2 }
        | SR.err insert_index =>
          let root2 := modifyDirEntries root0 ks (fun es =>
            es.insertIdx insert_index (Entry.symlink file_name original time time))
          Except.ok { s with system_root := root2 }

/-- std::io::SeekFrom. -/
inductive SeekFrom where
  | start (n : Nat)
  | fromEnd (n : Int)
  | current (n : Int)

/-- usize modulus of the 64-bit targets the crate runs on. -/
def USIZE : Nat := 2 ^ 64

/-- Seek for InMemoryFile (lines 955 to 977). -/
def InMemoryFile.seek (f : InMemoryFile) :
    SeekFrom → Except Err (InMemoryFile × Nat)
  | SeekFrom.start n => Except.ok ({ f with pos := n }, n)
  | SeekFrom.fromEnd n =>
    if (f.inner.data.length : Int) < -n then
      Except.error ⟨EKind.invalidInput, "Seeking before start of file"⟩
    else
      let p := ((f.inner.data.length : Int) + n).toNat
      Except.ok ({ f with pos := p }, p)
  | SeekFrom.current n =>
    let p := (((f.pos : Int) + n) % (USIZE : Int)).toNat
    Except.ok ({ f with pos := p }, p)

/-- Write for InMemoryFile (lines 979 to 990): zero-fill up to the
cursor if it is past the end, then splice the buffer over the tail,
refresh the modified time and advance the cursor. -/
def InMemoryFile.write (f : InMemoryFile) (tnow : Nat) (buf : List Nat) :
    InMemoryFile × Nat :=
  let data0 := f.inner.data
  let data1 := if data0.length < f.pos then data0 ++ List.replicate (f.pos - data0.length) 0 else data0
  let data2 := data1.take f.pos ++ buf
  (⟨{ f.inner with data := data2, modified := tnow }, f.pos + buf.length⟩, buf.length)

/-- Read for InMemoryFile (lines 997 to 1008), returning the bytes read
into a buffer of size n and the advanced handle. -/
def InMemoryFile.readAmount (f : InMemoryFile) (n : Nat) : InMemoryFile × List Nat :=
  if f.inner.data.length < f.pos then (f, [])
  else
    let avail := f.inner.data.drop f.pos
    let out := avail.take n
    ({ f with pos := f.pos + out.length }, out)

/-- The linear congruential generator of sys_random (lines 1021 to
1029) on 64-bit wrapping arithmetic; each byte is the top 8 bits of the
advanced state. -/
def lcgGo : Nat → Nat → List Nat
  | _, 0 => []
  | state, n + 1 =>
    let st2 := (state * 1664525 + 1013904223) % USIZE
    (st2 / 2 ^ 24 % 256) :: lcgGo st2 n

/-- sys_random (lines 1019 to 1050) filling a buffer of length n; when
no seed is configured the call delegates to the external entropy
source, modelled by the entropy parameter. -/
def sys_random (s : Sys) (n : Nat) (entropy : List Nat) : Except Err (List Nat) :=
  match s.random_seed with
  | some seed => Except.ok (lcgGo seed n)
  | none => Except.ok entropy

/-- Observer: does the path resolve (following symlinks) to a file?
This is fs_is_file of the facade. -/
def existsFileAt (root : List Entry) (p : List Comp) : Bool :=
  match lookup_entry_detail root p with
  | LRes.found _ (Entry.file _ _) => true
  | _ => false

/-- Observer: the child names of the directory at a key path. -/
def namesAtKeys (root : List Entry) (ks : List String) : Option (List String) :=
  (getDirEntries root ks).map (fun es => es.map Entry.name)

/-- Canonical component list that never compares equal to the empty
name: an optional leading RootDir followed by non-empty Normal
components.  Every path the follow loop feeds back into the walk has
this shape when the tree is wellformed. -/
def tailNE : List Comp → Bool
  | [] => true
  | Comp.normal s :: rest => (s != "") && tailNE rest
  | _ => false

def canonNE : List Comp → Bool
  | Comp.root :: rest => tailNE rest
  | p => tailNE p

def compNE : Comp → Bool
  | Comp.normal s => s != ""
  | _ => true

-- Wellformed tree for the termination argument: every symlink target
-- is free of empty Normal components (Path::components cannot produce
-- an empty Normal component, so every representable tree is wellformed).
mutual
def entryTargetsNE : Entry → Bool
  | Entry.file _ _ => true
  | Entry.symlink _ tgt _ _ => tgt.all compNE
  | Entry.directory _ _ _ es => treeTargetsNE es
def treeTargetsNE : List Entry → Bool
  | [] => true
  | e :: rest => entryTargetsNE e && treeTargetsNE rest
end

-- All (key path, raw target) pairs of symlink nodes in the tree.
mutual
def entryCollect (pk : List String) : Entry → List (List String × List Comp)
  | Entry.file _ _ => []
  | Entry.symlink n tgt _ _ => [(pk ++ [n], tgt)]
  | Entry.directory n _ _ es => listCollect (pk ++ [n]) es
def listCollect (pk : List String) : List Entry → List (List String × List Comp)
  | [] => []
  | e :: rest => entryCollect pk e ++ listCollect pk rest
end

/-- The canonical component list whose keys are the given names. -/
def compsOfKeys : List String → List Comp
  | [] => []
  | k :: rest => (if k = "" then Comp.root else Comp.normal k) :: rest.map Comp.normal

/-- Every target path the follow loop can possibly insert into its
visited set, one candidate per symlink node. -/
def candTargets (root : List Entry) : List (List Comp) :=
  (listCollect [] root).map
    (fun x => toComps (normalize_path (compsOfKeys x.1 ++ x.2)))

/-- Walk a key path through the tree by binary search, descending only
through directories (the node a successful no-follow walk stops at). -/
def walkNames : List Entry → List String → Option Entry
  | _, [] => none
  | entries, k :: rest =>
    match binary_search_by k entries with
    | SR.err _ => none
    | SR.ok pos =>
      match entries.getD pos dummyEntry with
      | Entry.directory n cr mo es =>
        if rest = [] then some (Entry.directory n cr mo es) else walkNames es rest
      | e => if rest = [] then some e else none

/-- Observer: does the path resolve (following symlinks) to a
directory?  This is fs_is_dir of the facade. -/
def existsDirAt (root : List Entry) (p : List Comp) : Bool :=
  match lookup_entry_detail root p with
  | LRes.found _ (Entry.directory _ _ _ _) => true
  | _ => false

-- Concrete states used by the witnesses and counterexamples below.

/-- Scenario state: the file system after create_dir_all on /root and
fs_write of the six bytes of abcdef to /root/a.txt at clock time 0. -/
def sceneRootDir : List Comp := [Comp.root, Comp.normal "root"]

def sceneFilePath : List Comp := [Comp.root, Comp.normal "root", Comp.normal "a.txt"]

def scene0 : Sys := Sys.default

def scene1 : Sys := (base_fs_create_dir_all scene0 0 sceneRootDir).toOption.getD scene0

def scene2 : Sys := (base_fs_write scene1 0 sceneFilePath [97, 98, 99, 100, 101, 102]).toOption.getD scene1

/-- open options with write true and truncate false. -/
def sceneOpenOpts : OpenOptions := ⟨false, true, false, false, false, false, none⟩

def sceneH0 : InMemoryFile :=
  match base_fs_open scene2 0 sceneFilePath sceneOpenOpts with
  | Except.ok (f, _) => f
  | Except.error _ => ⟨⟨0, 0, [], 0⟩, 0⟩

def sceneH1 : InMemoryFile := ((sceneH0.seek (SeekFrom.start 3)).toOption.getD (sceneH0, 0)).1

def sceneH2 : InMemoryFile := (sceneH1.write 0 [88, 89, 90]).1

def sceneH3 : InMemoryFile := ((sceneH2.seek (SeekFrom.fromEnd 2)).toOption.getD (sceneH2, 0)).1

def sceneH4 : InMemoryFile := (sceneH3.write 0 [81]).1

/-- A tree with directory /a containing file /a/b and symlink /a/link
whose stored target is the single relative component b. -/
def linkTree : List Entry :=
  [Entry.directory "" 0 0
    [Entry.directory "a" 0 0
      [Entry.file "b" ⟨0, 0, [1], 438⟩,
       Entry.symlink "link" [Comp.normal "b"] 0 0]]]

/-- A tree with directory /a containing file /a/f, plus file /b at the
root directory. -/
def lostTree : List Entry :=
  [Entry.directory "" 0 0
    [Entry.directory "a" 0 0 [Entry.file "f" ⟨0, 0, [7], 438⟩],
     Entry.file "b" ⟨0, 0, [], 438⟩]]

def lostSys : Sys := ⟨lostTree, ⟨true, []⟩, true, none, [], none⟩

/-- rename /a/f to /b/c: the destination-parent walk runs into the
file /b and fails after the source entry was detached. -/
def lostRes : Option Err × Sys :=
  base_fs_rename lostSys 0
    [Comp.root, Comp.normal "a", Comp.normal "f"]
    [Comp.root, Comp.normal "b", Comp.normal "c"]

/-- rename /a/f to /c/d/g on the same state: the destination parent
/c/d does not exist and contains no file component, so the walk creates
it. -/
def createRes : Option Err × Sys :=
  base_fs_rename lostSys 0
    [Comp.root, Comp.normal "a", Comp.normal "f"]
    [Comp.root, Comp.normal "c", Comp.normal "d", Comp.normal "g"]

/-- A tree whose only content is the directory /a/b. -/
def dupTree : List Entry :=
  [Entry.directory "" 0 0 [Entry.directory "a" 0 0 [Entry.directory "b" 0 0 []]]]

def dupSys : Sys := ⟨dupTree, ⟨true, []⟩, true, none, [], none⟩

/-- rename /a/b to /a/b/c: the source directory /a/b is detached, the
destination-parent walk recreates a fresh /a/b, and the restore path
inserts the detached directory next to it. -/
def dupRes : Option Err × Sys :=
  base_fs_rename dupSys 0
    [Comp.root, Comp.normal "a", Comp.normal "b"]
    [Comp.root, Comp.normal "a", Comp.normal "b", Comp.normal "c"]

/-- A cyclic pair of symlinks: /x points at /y and /y points at /x. -/
def cycleTree : List Entry :=
  [Entry.directory "" 0 0
    [Entry.symlink "x" [Comp.root, Comp.normal "y"] 0 0,
     Entry.symlink "y" [Comp.root, Comp.normal "x"] 0 0]]

/-- An empty file system with the PRNG seed set to 42. -/
def seededSys : Sys := ⟨[], ⟨true, []⟩, true, some 42, [], none⟩

/-- open options with write true and truncate true. -/
def truncOpenOpts : OpenOptions := ⟨false, true, false, true, false, false, none⟩

/-- Opening the six-byte file of the scenario state with truncate. -/
def sceneTrunc : InMemoryFile × Sys :=
  (base_fs_open scene2 0 sceneFilePath truncOpenOpts).toOption.getD
    (⟨⟨0, 0, [], 0⟩, 0⟩, scene2)

-- Theorems.  Helper lemmas first, then one named theorem per claim
-- (with its witness or counterexample where required).

theorem getD_mem {α : Type} : ∀ (l : List α) (i : Nat) (d : α),
    i < l.length → l.getD i d ∈ l := by
  intro l
  induction l with
  | nil => intro i d h; simp at h
  | cons x xs ih =>
    intro i d h
    cases i with
    | zero => simp [List.getD]
    | succ j =>
      have := ih j d (by simpa using Nat.lt_of_succ_lt_succ h)
      simp [List.getD] at this ⊢
      exact Or.inr this

theorem set_getD_self {α : Type} : ∀ (l : List α) (i : Nat) (d : α),
    i < l.length → l.set i (l.getD i d) = l := by
  intro l
  induction l with
  | nil => intro i d h; simp at h
  | cons x xs ih =>
    intro i d h
    cases i with
    | zero => simp [List.getD]
    | succ j =>
      simp only [List.getD, List.set]
      have := ih j d (by simpa using Nat.lt_of_succ_lt_succ h)
      simp [List.getD] at this
      simp [this]

theorem getD_set_self {α : Type} : ∀ (l : List α) (i : Nat) (d x : α),
    i < l.length → (l.set i x).getD i d = x := by
  intro l
  induction l with
  | nil => intro i d x h; simp at h
  | cons y ys ih =>
    intro i d x h
    cases i with
    | zero => simp [List.getD]
    | succ j =>
      simp only [List.set, List.getD]
      have := ih j d x (by simpa using Nat.lt_of_succ_lt_succ h)
      simpa [List.getD] using this

theorem eraseIdx_insertIdx_getD {α : Type} : ∀ (l : List α) (i : Nat) (d : α),
    i < l.length → (l.eraseIdx i).insertIdx i (l.getD i d) = l := by
  intro l
  induction l with
  | nil => intro i d h; simp at h
  | cons x xs ih =>
    intro i d h
    cases i with
    | zero => simp [List.getD, List.insertIdx]
    | succ j =>
      simp only [List.getD, List.eraseIdx, List.insertIdx, List.modifyTailIdx]
      have := ih j d (by simpa using Nat.lt_of_succ_lt_succ h)
      simp only [List.getD, List.insertIdx, List.get?_eq_getElem?] at this
      simp [this]

theorem strLtList_antisymm : ∀ (as bs : List Char),
    strLtList as bs = false → strLtList bs as = false → as = bs := by
  intro as
  induction as with
  | nil =>
    intro bs h1 _
    cases bs with
    | nil => rfl
    | cons b bs2 => simp [strLtList] at h1
  | cons a as2 ih =>
    intro bs h1 h2
    cases bs with
    | nil => simp [strLtList] at h2
    | cons b bs2 =>
      simp only [strLtList] at h1 h2
      by_cases hab : a.val < b.val
      · simp [hab] at h1
      · by_cases hba : b.val < a.val
        · simp [hba] at h2
        · have hv : a.val = b.val := by
            apply UInt32.le_antisymm
            · exact Nat.le_of_not_lt hba
            · exact Nat.le_of_not_lt hab
          have hc : a = b := Char.eq_of_val_eq hv
          rw [if_neg hab, if_neg hba] at h1
          rw [if_neg hba, if_neg hab] at h2
          rw [hc, ih bs2 h1 h2]

theorem strCmp_eq_iff (a b : String) : strCmp a b = Ordering.eq → a = b := by
  intro h
  unfold strCmp at h
  by_cases h1 : strLt a b = true
  · simp [h1] at h
  · by_cases h2 : strLt b a = true
    · simp [h1, h2] at h
    · have ha : strLtList a.data b.data = false := by
        simpa [strLt] using h1
      have hb : strLtList b.data a.data = false := by
        simpa [strLt] using h2
      have := strLtList_antisymm a.data b.data ha hb
      cases a; cases b
      simp only at this
      rw [this]

theorem bsgo_ok : ∀ (fuel : Nat) (names : List String) (key : String)
    (left right i : Nat),
    bsgo names key fuel left right = SR.ok i →
    left ≤ i ∧ i < right ∧ names.getD i "" = key := by
  intro fuel
  induction fuel with
  | zero => intro names key left right i h; simp [bsgo] at h
  | succ fl ih =>
    intro names key left right i h
    simp only [bsgo] at h
    by_cases hlr : left < right
    · rw [if_pos hlr] at h
      rcases hcmp : strCmp (names.getD (left + (right - left) / 2) "") key with _ | _ | _
      · rw [hcmp] at h
        have := ih names key (left + (right - left) / 2 + 1) right i h
        refine ⟨by omega, this.2.1, this.2.2⟩
      · rw [hcmp] at h
        have := strCmp_eq_iff _ _ hcmp
        cases h
        exact ⟨by omega, by omega, this⟩
      · rw [hcmp] at h
        have := ih names key left (left + (right - left) / 2) i h
        exact ⟨this.1, by omega, this.2.2⟩
    · rw [if_neg hlr] at h
      exact absurd h (by simp)

theorem binary_search_by_ok (key : String) (l : List Entry) (i : Nat) :
    binary_search_by key l = SR.ok i →
    i < l.length ∧ Entry.name (l.getD i dummyEntry) = key := by
  intro h
  have := bsgo_ok l.length (l.map Entry.name) key 0 l.length i h
  refine ⟨this.2.1, ?_⟩
  have hn := this.2.2
  have hlt : i < l.length := this.2.1
  rw [List.getD_eq_getElem?_getD, List.getElem?_map] at hn
  rw [List.getElem?_eq_getElem hlt] at hn
  simpa [List.getD_eq_getElem?_getD, List.getElem?_eq_getElem hlt] using hn

theorem map_set_comm {α β : Type} (f : α → β) : ∀ (l : List α) (i : Nat) (x : α),
    (l.set i x).map f = (l.map f).set i (f x) := by
  intro l
  induction l with
  | nil => intro i x; simp
  | cons y ys ih =>
    intro i x
    cases i with
    | zero => simp
    | succ j => simp [ih j x]

theorem getD_map_name (l : List Entry) (i : Nat) (hl : i < l.length) :
    (l.map Entry.name).getD i "" = Entry.name (l.getD i dummyEntry) := by
  rw [List.getD_eq_getElem (l.map Entry.name) "" (by simpa using hl),
      List.getD_eq_getElem l dummyEntry hl]
  simp

theorem binary_search_set_name (key : String) (l : List Entry) (i : Nat) (e : Entry)
    (hl : i < l.length) (hn : Entry.name e = Entry.name (l.getD i dummyEntry)) :
    binary_search_by key (l.set i e) = binary_search_by key l := by
  unfold binary_search_by
  have hmap : (l.set i e).map Entry.name = l.map Entry.name := by
    rw [map_set_comm, hn, ← getD_map_name l i hl]
    exact set_getD_self (l.map Entry.name) i "" (by simpa using hl)
  rw [hmap, List.length_set]

theorem findDirGo_false_spec : ∀ (p : List Comp) (entries : List Entry) (t : Nat)
    (root2 : List Entry) (ks : List String) (des : List Entry),
    findDirGo false t entries p = Except.ok (root2, ks, des) →
    root2 = entries ∧ ks ≠ [] ∧ getDirEntries entries ks = some des := by
  intro p
  induction p with
  | nil => intro entries t root2 ks des h; simp [findDirGo] at h
  | cons c rest ih =>
    intro entries t root2 ks des h
    rcases hbs : binary_search_by (keyOf c) entries with ⟨pos⟩ | ⟨ipos⟩
    · rcases hget : entries.getD pos dummyEntry with ⟨n, fi⟩ | ⟨n, cr, mo, es⟩ | ⟨n, tg, cr, mo⟩
      · simp only [findDirGo, hbs, hget] at h
        exact Except.noConfusion h
      · have hlt := (binary_search_by_ok _ _ _ hbs).1
        by_cases hrest : rest = []
        · simp only [findDirGo, hbs, hget, if_pos hrest, Except.ok.injEq,
            Prod.mk.injEq] at h
          obtain ⟨h1, h2, h3⟩ := h
          subst h1 h2 h3
          refine ⟨rfl, by simp, ?_⟩
          simp only [getDirEntries, hbs, hget]
          simp
        · simp only [findDirGo, hbs, hget, if_neg hrest] at h
          rcases hrec : findDirGo false t es rest with ⟨e2⟩ | ⟨⟨es2, ks2, des2⟩⟩
          · simp [hrec] at h
          · simp only [hrec, Except.ok.injEq, Prod.mk.injEq] at h
            obtain ⟨h1, h2, h3⟩ := h
            obtain ⟨hes2, hksne, hget2⟩ := ih es t es2 ks2 des2 hrec
            subst h2 h3 hes2
            constructor
            · rw [← h1, ← hget, set_getD_self entries pos dummyEntry hlt]
            · refine ⟨by simp, ?_⟩
              simp only [getDirEntries, hbs, hget]
              rw [if_neg hksne]
              exact hget2
      · simp only [findDirGo, hbs, hget] at h
        exact Except.noConfusion h
    · simp [findDirGo, hbs] at h

theorem find_directory_mut_false_spec (root : List Entry) (p : List Comp) (t : Nat)
    (root2 : List Entry) (ks : List String) (des : List Entry)
    (h : find_directory_mut root p false t = Except.ok (root2, ks, des)) :
    root2 = root ∧ ks ≠ [] ∧ getDirEntries root ks = some des := by
  rcases hl : lookup_entry_detail root p with ⟨e⟩ | ⟨q⟩ | ⟨q, e⟩
  · simp only [find_directory_mut, hl] at h
    exact Except.noConfusion h
  · by_cases hq : q = []
    · simp only [find_directory_mut, hl, if_pos hq] at h
      exact Except.noConfusion h
    · simp only [find_directory_mut, hl, if_neg hq] at h
      exact findDirGo_false_spec q root t root2 ks des h
  · by_cases hq : q = []
    · simp only [find_directory_mut, hl, if_pos hq] at h
      exact Except.noConfusion h
    · simp only [find_directory_mut, hl, if_neg hq] at h
      exact findDirGo_false_spec q root t root2 ks des h

theorem modify_congr : ∀ (ks : List String) (r des : List Entry)
    (f g : List Entry → List Entry),
    getDirEntries r ks = some des → f des = g des →
    modifyDirEntries r ks f = modifyDirEntries r ks g := by
  intro ks
  induction ks with
  | nil => intro r des f g h _; simp [getDirEntries] at h
  | cons k rest ih =>
    intro r des f g h hfg
    rcases hbs : binary_search_by k r with ⟨pos⟩ | ⟨ipos⟩
    · rcases hget : r.getD pos dummyEntry with ⟨n, fi⟩ | ⟨n, cr, mo, es⟩ | ⟨n, tg, cr, mo⟩
      · simp only [getDirEntries, hbs, hget] at h
        exact Option.noConfusion h
      · by_cases hrest : rest = []
        · subst hrest
          simp only [getDirEntries, hbs, hget, reduceIte, Option.some.injEq] at h
          subst h
          simp only [modifyDirEntries, hbs, hget, reduceIte, hfg]
        · simp only [getDirEntries, hbs, hget, if_neg hrest] at h
          simp only [modifyDirEntries, hbs, hget, if_neg hrest, ih es des f g h hfg]
      · simp only [getDirEntries, hbs, hget] at h
        exact Option.noConfusion h
    · simp only [getDirEntries, hbs] at h
      exact Option.noConfusion h

theorem modify_modify : ∀ (ks : List String) (r : List Entry)
    (f g : List Entry → List Entry),
    modifyDirEntries (modifyDirEntries r ks f) ks g =
      modifyDirEntries r ks (fun es => g (f es)) := by
  intro ks
  induction ks with
  | nil => intro r f g; simp [modifyDirEntries]
  | cons k rest ih =>
    intro r f g
    rcases hbs : binary_search_by k r with ⟨pos⟩ | ⟨ipos⟩
    · rcases hget : r.getD pos dummyEntry with ⟨n, fi⟩ | ⟨n, cr, mo, es⟩ | ⟨n, tg, cr, mo⟩
      · simp only [modifyDirEntries, hbs, hget]
      · have hlt := (binary_search_by_ok _ _ _ hbs).1
        have hin : modifyDirEntries r (k :: rest) f =
            r.set pos (Entry.directory n cr mo
              (if rest = [] then f es else modifyDirEntries es rest f)) := by
          simp only [modifyDirEntries, hbs, hget]
        have hname : Entry.name (Entry.directory n cr mo
            (if rest = [] then f es else modifyDirEntries es rest f)) =
            Entry.name (r.getD pos dummyEntry) := by
          rw [hget]; rfl
        have hbs2 := binary_search_set_name k r pos _ hlt hname
        rw [hin]
        have hget2 : (r.set pos (Entry.directory n cr mo
            (if rest = [] then f es else modifyDirEntries es rest f))).getD pos dummyEntry =
            Entry.directory n cr mo (if rest = [] then f es else modifyDirEntries es rest f) :=
          getD_set_self r pos dummyEntry _ hlt
        simp only [modifyDirEntries, hbs, hbs2, hget, hget2, List.set_set]
        by_cases hrest : rest = []
        · subst hrest
          simp only [reduceIte]
        · simp only [if_neg hrest, ih es f g]
      · simp only [modifyDirEntries, hbs, hget]
    · simp only [modifyDirEntries, hbs]

theorem modify_id : ∀ (ks : List String) (r : List Entry),
    modifyDirEntries r ks (fun es => es) = r := by
  intro ks
  induction ks with
  | nil => intro r; simp [modifyDirEntries]
  | cons k rest ih =>
    intro r
    rcases hbs : binary_search_by k r with ⟨pos⟩ | ⟨ipos⟩
    · rcases hget : r.getD pos dummyEntry with ⟨n, fi⟩ | ⟨n, cr, mo, es⟩ | ⟨n, tg, cr, mo⟩
      · simp only [modifyDirEntries, hbs, hget]
      · have hlt := (binary_search_by_ok _ _ _ hbs).1
        by_cases hrest : rest = []
        · subst hrest
          simp only [modifyDirEntries, hbs, hget, reduceIte]
          rw [← hget, set_getD_self r pos dummyEntry hlt]
        · simp only [modifyDirEntries, hbs, hget, if_neg hrest, ih es]
          rw [← hget, set_getD_self r pos dummyEntry hlt]
      · simp only [modifyDirEntries, hbs, hget]
    · simp only [modifyDirEntries, hbs]

theorem rename_restore (root : List Entry) (p : List Comp) (t : Nat)
    (root0 : List Entry) (fpKeys : List String) (fpEntries : List Entry)
    (fn : String) (from_idx : Nat)
    (hw : find_directory_mut root p false t = Except.ok (root0, fpKeys, fpEntries))
    (hbs : binary_search_by fn fpEntries = SR.ok from_idx) :
    modifyDirEntries (modifyDirEntries root0 fpKeys (fun es => es.eraseIdx from_idx))
      fpKeys (fun es => es.insertIdx from_idx (fpEntries.getD from_idx dummyEntry)) = root := by
  obtain ⟨hroot, _, hget⟩ := find_directory_mut_false_spec root p t root0 fpKeys fpEntries hw
  subst hroot
  rw [modify_modify]
  have hlen := (binary_search_by_ok fn fpEntries from_idx hbs).1
  have hcanc : (fun es => (es.eraseIdx from_idx).insertIdx from_idx
      (fpEntries.getD from_idx dummyEntry)) fpEntries = (fun es => es) fpEntries := by
    exact eraseIdx_insertIdx_getD fpEntries from_idx dummyEntry hlen
  rw [modify_congr fpKeys root0 fpEntries _ (fun es => es) hget hcanc, modify_id]

/-- Claim C1 (amended): when rename fails after detaching the source
entry but before the destination-parent walk runs, i.e. because the
destination path has no valid parent or no file name, the detached
entry is reinserted through the still-held parent reference and the
observable state equals the state before the call. -/
theorem c1_rename_early_failures_restore_state
    (s : Sys) (now : Nat) (fromP toP : List Comp) (e : Err) (s2 : Sys)
    (hto : NPath.parentNE (to_absolute_path s toP) = none ∨
           NPath.fileNameOf (to_absolute_path s toP) = none)
    (hr : base_fs_rename s now fromP toP = (some e, s2)) :
    s2 = s := by
  rcases hfp : NPath.parentNE (to_absolute_path s fromP) with _ | fpp
  · simp only [base_fs_rename, hfp, Prod.mk.injEq] at hr
    exact hr.2.symm
  rcases hfn : NPath.fileNameOf (to_absolute_path s fromP) with _ | fn
  · simp only [base_fs_rename, hfp, hfn, Prod.mk.injEq] at hr
    exact hr.2.symm
  rcases hw : find_directory_mut s.system_root (toComps fpp) false (time_now s now) with
    ⟨e0⟩ | ⟨⟨root0, fpKeys, fpEntries⟩⟩
  · simp only [base_fs_rename, hfp, hfn, hw, Prod.mk.injEq] at hr
    exact hr.2.symm
  rcases hbs : binary_search_by fn fpEntries with ⟨from_idx⟩ | ⟨i⟩
  · have hrestore := rename_restore s.system_root (toComps fpp) (time_now s now)
      root0 fpKeys fpEntries fn from_idx hw hbs
    rcases hto with hto | hto
    · simp only [base_fs_rename, hfp, hfn, hw, hbs, hto, Prod.mk.injEq] at hr
      rw [← hr.2, hrestore]
    · rcases htp : NPath.parentNE (to_absolute_path s toP) with _ | tpp
      · simp only [base_fs_rename, hfp, hfn, hw, hbs, htp, Prod.mk.injEq] at hr
        rw [← hr.2, hrestore]
      · simp only [base_fs_rename, hfp, hfn, hw, hbs, htp, hto, Prod.mk.injEq] at hr
        rw [← hr.2, hrestore]
  · simp only [base_fs_rename, hfp, hfn, hw, hbs, Prod.mk.injEq] at hr
    exact hr.2.symm

/-- Witness for claim C1: renaming /a/f onto the root path fails after
detachment (the destination has no valid parent) and the state is
exactly restored. -/
theorem c1_rename_early_failures_restore_state_witness :
    NPath.parentNE (to_absolute_path lostSys [Comp.root]) = none ∧
    (base_fs_rename lostSys 0 [Comp.root, Comp.normal "a", Comp.normal "f"]
      [Comp.root]).2 = lostSys :=
  ⟨by decide,
   c1_rename_early_failures_restore_state lostSys 0
     [Comp.root, Comp.normal "a", Comp.normal "f"] [Comp.root]
     ⟨EKind.other, "Cannot rename to root or invalid path"⟩
     (base_fs_rename lostSys 0 [Comp.root, Comp.normal "a", Comp.normal "f"]
       [Comp.root]).2
     (Or.inl (by decide)) (by rfl)⟩

/-- Counterexample for claim C1 as stated: rename(/a/f, /b/c) on a
state where /b is a file returns an error after the source entry was
detached, and the source entry is NOT reinserted: /a/f resolved to a
file before the call and no longer does afterwards, so the state
observable after the failed rename differs from the state before. -/
theorem c1_rename_walk_failure_loses_entry :
    lostRes.1 = some ⟨EKind.other, "Path leads into a file or symlink"⟩ ∧
    existsFileAt lostSys.system_root [Comp.root, Comp.normal "a", Comp.normal "f"] = true ∧
    existsFileAt lostRes.2.system_root [Comp.root, Comp.normal "a", Comp.normal "f"] = false :=
  ⟨by decide, by decide, by decide⟩

/-- Counterexample for claim C4 as stated: the resolver rejects the
empty path with an error classified NotFound, which is a different
taxonomy class than InvalidInput, contradicting the claimed
classification. -/
theorem c4_empty_path_error_kind_not_found :
    lookup_entry_detail_no_follow [] [] = NFRes.err ⟨EKind.notFound, "Empty path"⟩ ∧
    EKind.notFound ≠ EKind.invalidInput :=
  ⟨rfl, by decide⟩

/-- Claim C4 (amended): for every tree, every resolver entry point
rejects the empty component list, and the error it fails with is
classified NotFound (message Empty path), not InvalidInput. -/
theorem c4_empty_path_fails_not_found (root : List Entry) (create : Bool) (t : Nat) :
    lookup_entry_detail_no_follow root [] = NFRes.err ⟨EKind.notFound, "Empty path"⟩ ∧
    lookup_entry_detail root [] = LRes.err ⟨EKind.notFound, "Empty path"⟩ ∧
    find_directory_mut root [] create t = Except.error ⟨EKind.notFound, "Empty path"⟩ :=
  ⟨rfl, rfl, rfl⟩

/-- Claim C10: with a PRNG seed configured, sys_random is a pure
function of the seed and the buffer length: two calls with buffers of
equal length receive identical bytes, each restarting the linear
congruential generator from the stored seed (the call reads but never
writes the state, so no generator state advances between calls). -/
theorem c10_seeded_random_identical_calls (s : Sys) (seed n : Nat)
    (e1 e2 : List Nat) (hs : s.random_seed = some seed) :
    sys_random s n e1 = sys_random s n e2 ∧
    sys_random s n e1 = Except.ok (lcgGo seed n) := by
  simp [sys_random, hs]

/-- Witness for claim C10 at seed 42 and length 3, with two different
external entropy inputs. -/
theorem c10_seeded_random_identical_calls_witness :
    seededSys.random_seed = some 42 ∧
    (sys_random seededSys 3 [1, 2, 3] = sys_random seededSys 3 [9, 9, 9] ∧
     sys_random seededSys 3 [1, 2, 3] = Except.ok (lcgGo 42 3)) :=
  ⟨rfl, c10_seeded_random_identical_calls seededSys 42 3 [1, 2, 3] [9, 9, 9] rfl⟩

/-- Claim C5: in the scenario create dir /root, write abcdef to
/root/a.txt, open with write and truncate false, seek Start 3, write
XYZ, seek End +2, write Q, the buffer ends as the bytes of abcXYZ
followed by two zero bytes and Q; the write past the end zero-filled
the gap, and every write advanced the cursor by its byte count
(0 to 3 to 6 to 8 to 9). -/
theorem c5_sparse_write_scenario :
    (base_fs_create_dir_all scene0 0 sceneRootDir).isOk = true ∧
    (base_fs_write scene1 0 sceneFilePath [97, 98, 99, 100, 101, 102]).isOk = true ∧
    sceneH0.inner.data = [97, 98, 99, 100, 101, 102] ∧ sceneH0.pos = 0 ∧
    sceneH1.pos = 3 ∧
    sceneH2.inner.data = [97, 98, 99, 88, 89, 90] ∧ sceneH2.pos = 6 ∧
    sceneH3.pos = 8 ∧
    sceneH4.inner.data = [97, 98, 99, 88, 89, 90, 0, 0, 81] ∧ sceneH4.pos = 9 := by
  decide

/-- Claim C2 (code bug): the symlink /a/link stores the relative
target b; the spec says resolution joins the target against the
containing directory /a, yielding the file /a/b (which exists, second
conjunct, and is what normalizing the containing-directory join
produces, third conjunct), but lookup_entry_detail joins it against
the link path itself, so following /a/link loops on /a/link/b and
fails with the symlink loop error instead. -/
theorem c2_relative_symlink_resolves_against_link_path :
    lookup_entry_detail linkTree [Comp.root, Comp.normal "a", Comp.normal "link"] =
      LRes.err ⟨EKind.other, "Symlink loop detected"⟩ ∧
    existsFileAt linkTree [Comp.root, Comp.normal "a", Comp.normal "b"] = true ∧
    toComps (normalize_path ([Comp.root, Comp.normal "a"] ++ [Comp.normal "b"])) =
      [Comp.root, Comp.normal "a", Comp.normal "b"] :=
  ⟨rfl, by decide, by decide⟩

/-- Claim C8 (code bug): starting from a sorted, duplicate-free tree
containing only the directory /a/b, rename(/a/b, /a/b/c) detaches
/a/b, recreates a fresh directory b while walking the destination
parent, and then reinserts the detached directory at its old index, so
the directory /a ends up with two children named b: the sorted,
duplicate-free invariant is violated by this mutating operation. -/
theorem c8_rename_restore_creates_duplicate_entries :
    namesAtKeys dupSys.system_root ["", "a"] = some ["b"] ∧
    dupRes.1 = some ⟨EKind.other, "Cannot rename directories or symlinks here"⟩ ∧
    namesAtKeys dupRes.2.system_root ["", "a"] = some ["b", "b"] :=
  ⟨by decide, by decide, by decide⟩

theorem foldl_normStep_normals : ∀ (l : List String) (acc : NPath),
    List.foldl normStep acc (l.map Comp.normal) = ⟨acc.abs, acc.comps ++ l⟩ := by
  intro l
  induction l with
  | nil => intro acc; simp
  | cons s rest ih =>
    intro acc
    simp only [List.map_cons, List.foldl_cons, normStep, ih]
    simp

theorem normalize_toComps (np : NPath) : normalize_path (toComps np) = np := by
  rcases np with ⟨abs, comps⟩
  cases abs
  · simp only [toComps, normalize_path]
    simpa using foldl_normStep_normals comps ⟨false, []⟩
  · simp only [toComps, normalize_path, List.cons_append, List.nil_append,
      List.foldl_cons, normStep]
    simpa using foldl_normStep_normals comps ⟨true, []⟩

theorem normalize_strings : ∀ (l : List Comp) (acc : NPath) (s : String),
    s ∈ (List.foldl normStep acc l).comps → s ∈ acc.comps ∨ Comp.normal s ∈ l := by
  intro l
  induction l with
  | nil => intro acc s h; exact Or.inl (by simpa using h)
  | cons c rest ih =>
    intro acc s h
    rw [List.foldl_cons] at h
    rcases ih (normStep acc c) s h with hacc | hrest
    · cases c with
      | root => simp [normStep] at hacc
      | cur => exact Or.inl hacc
      | parent =>
        refine Or.inl ?_
        simp only [normStep] at hacc
        exact List.dropLast_subset _ hacc
      | normal t =>
        simp only [normStep, List.mem_append, List.mem_singleton] at hacc
        rcases hacc with h1 | h2
        · exact Or.inl h1
        · subst h2; exact Or.inr (by simp)
    · exact Or.inr (List.mem_cons_of_mem c hrest)

theorem filterMap_reparse : ∀ (l : List String),
    (∀ s ∈ l, s ≠ "" ∧ s ≠ "." ∧ s ≠ "..") →
    l.filterMap reparseComp = l.map Comp.normal := by
  intro l
  induction l with
  | nil => intro _; simp
  | cons s rest ih =>
    intro h
    have hs := h s (by simp)
    have hrec := ih (fun t ht => h t (List.mem_cons_of_mem s ht))
    simp only [List.filterMap_cons, List.map_cons, reparseComp]
    rw [if_neg (by simp [hs.1, hs.2.1]), if_neg hs.2.2]
    simp [hrec]

theorem reparse_eq_toComps (np : NPath)
    (h : ∀ s ∈ np.comps, s ≠ "" ∧ s ≠ "." ∧ s ≠ "..") :
    reparse np = toComps np := by
  unfold reparse toComps
  rw [filterMap_reparse np.comps h]

/-- Claim C7: path normalization is idempotent: re-parsing the PathBuf
produced by normalize_path and normalizing again changes nothing (for
any path Rust can hand in, i.e. one without empty, dot or dot-dot
Normal components, which Path::components never yields). -/
theorem c7_normalize_idempotent (p : List Comp) (hw : wfPath p = true) :
    normalize_path (reparse (normalize_path p)) = normalize_path p := by
  have hstr : ∀ s ∈ (normalize_path p).comps, s ≠ "" ∧ s ≠ "." ∧ s ≠ ".." := by
    intro s hs
    have hmem := normalize_strings p ⟨false, []⟩ s hs
    simp only [List.not_mem_nil] at hmem
    rcases hmem with h1 | h2
    · exact absurd h1 (by simp)
    · have := List.all_eq_true.mp hw _ h2
      simpa [wfComp] using this
  rw [reparse_eq_toComps _ hstr, normalize_toComps]

/-- Witness for claim C7 on the path /a/.././b. -/
theorem c7_normalize_idempotent_witness :
    wfPath [Comp.root, Comp.normal "a", Comp.parent, Comp.cur, Comp.normal "b"] = true ∧
    normalize_path (reparse (normalize_path
      [Comp.root, Comp.normal "a", Comp.parent, Comp.cur, Comp.normal "b"])) =
      normalize_path [Comp.root, Comp.normal "a", Comp.parent, Comp.cur, Comp.normal "b"] :=
  ⟨by decide,
   c7_normalize_idempotent
     [Comp.root, Comp.normal "a", Comp.parent, Comp.cur, Comp.normal "b"] (by decide)⟩

theorem open_core_truncate (s : Sys) (now : Nat) (p : List Comp)
    (opts : OpenOptions) (f : InMemoryFile) (ks : List String) (fn : String) (s2 : Sys)
    (htr : opts.truncate = true)
    (h : base_fs_open_core s now p opts = Except.ok (f, ks, fn, s2)) :
    f.inner.data = [] ∧ f.inner.modified = time_now s now := by
  rcases hp : NPath.parentNE (to_absolute_path s p) with _ | pp
  · simp only [base_fs_open_core, hp] at h
    exact Except.noConfusion h
  rcases hw : find_directory_mut s.system_root (toComps pp) false (time_now s now) with
    ⟨e0⟩ | ⟨⟨root0, ks0, dirEs⟩⟩
  · simp only [base_fs_open_core, hp, hw] at h
    exact Except.noConfusion h
  rcases hfn : NPath.fileNameOf (to_absolute_path s p) with _ | file_name
  · simp only [base_fs_open_core, hp, hw, hfn] at h
    exact Except.noConfusion h
  rcases hbs : binary_search_by file_name dirEs with ⟨pos⟩ | ⟨ipos⟩
  · rcases hget : dirEs.getD pos dummyEntry with ⟨n, fi⟩ | ⟨n, cr, mo, es⟩ | ⟨n, tg, cr, mo⟩
    · by_cases hcn : opts.create_new = true
      · simp only [base_fs_open_core, hp, hw, hfn, hbs, hget, hcn, if_pos rfl] at h
        exact Except.noConfusion h
      · have hcn2 : opts.create_new = false := by
          cases hx : opts.create_new
          · rfl
          · exact absurd hx hcn
        simp only [base_fs_open_core, hp, hw, hfn, hbs, hget, hcn2, Bool.false_eq_true,
          if_false, htr, if_true, Except.ok.injEq, Prod.mk.injEq] at h
        obtain ⟨hf, _⟩ := h
        rw [← hf]
        exact ⟨rfl, rfl⟩
    · simp only [base_fs_open_core, hp, hw, hfn, hbs, hget] at h
      exact Except.noConfusion h
    · simp only [base_fs_open_core, hp, hw, hfn, hbs, hget] at h
      exact Except.noConfusion h
  · by_cases hcr : opts.create = true
    · simp only [base_fs_open_core, hp, hw, hfn, hbs, hcr, if_true, Except.ok.injEq,
        Prod.mk.injEq] at h
      obtain ⟨hf, _⟩ := h
      rw [← hf]
      exact ⟨rfl, rfl⟩
    · have hcr2 : opts.create = false := by
        cases hx : opts.create
        · rfl
        · exact absurd hx hcr
      simp only [base_fs_open_core, hp, hw, hfn, hbs, hcr2, Bool.false_eq_true, if_false] at h
      exact Except.noConfusion h

/-- Claim C6: whenever base_fs_open succeeds with truncate set, the
returned handle's shared buffer (the file's content) is empty before
any write, and its modified timestamp equals the clock value at open
time (this covers the claimed existing-file case, where the buffer was
cleared and the time bumped, as well as the freshly created file whose
buffer is empty with the same timestamp). -/
theorem c6_truncate_clears_at_open (s : Sys) (now : Nat) (p : List Comp)
    (opts : OpenOptions) (f : InMemoryFile) (s2 : Sys)
    (htr : opts.truncate = true)
    (h : base_fs_open s now p opts = Except.ok (f, s2)) :
    f.inner.data = [] ∧ f.inner.modified = time_now s now := by
  rcases hc : base_fs_open_core s now p opts with ⟨e0⟩ | ⟨⟨f0, ks0, fn0, s0⟩⟩
  · simp only [base_fs_open, hc] at h
    exact Except.noConfusion h
  · simp only [base_fs_open, hc, Except.ok.injEq, Prod.mk.injEq] at h
    obtain ⟨hf, _⟩ := h
    subst hf
    exact open_core_truncate s now p opts f0 ks0 fn0 s0 htr hc

/-- Witness for claim C6: opening the six-byte file /root/a.txt of the
scenario state with truncate yields an empty buffer stamped with the
clock time. -/
theorem c6_truncate_clears_at_open_witness :
    truncOpenOpts.truncate = true ∧
    (sceneTrunc.1.inner.data = [] ∧ sceneTrunc.1.inner.modified = time_now scene2 0) :=
  ⟨rfl,
   c6_truncate_clears_at_open scene2 0 sceneFilePath truncOpenOpts
     sceneTrunc.1 sceneTrunc.2 rfl (by rfl)⟩

/-- Counterexample for claim C9 as stated: on a state where /a/f
resolves to a file and the destination parent /b/c does not exist
(because /b is a file), rename(/a/f, /b/c/d) does not succeed: the
destination-parent walk fails on the file component. -/
theorem c9_rename_dest_parent_file_fails :
    existsFileAt lostSys.system_root [Comp.root, Comp.normal "a", Comp.normal "f"] = true ∧
    existsDirAt lostSys.system_root [Comp.root, Comp.normal "b", Comp.normal "c"] = false ∧
    (base_fs_rename lostSys 0
      [Comp.root, Comp.normal "a", Comp.normal "f"]
      [Comp.root, Comp.normal "b", Comp.normal "c", Comp.normal "d"]).1 =
      some ⟨EKind.other, "Path leads into a file or symlink"⟩ :=
  ⟨by decide, by decide, by decide⟩

/-- Claim C9 (amended): rename invokes the destination-parent walk
with create_missing set, so when the source parent walk finds a File,
the destination-parent walk succeeds (creating every missing parent
directory) and the destination name is absent in the resulting parent,
rename returns success and inserts the file into the directory that
walk produced; when instead an existing component of the destination
parent is a file, the walk fails and so does rename. -/
theorem c9_rename_creates_missing_dest_parents
    (s : Sys) (now : Nat) (fromP toP : List Comp)
    (fpp tpp : NPath) (fn tn : String)
    (root0 : List Entry) (fpKeys : List String) (fpEntries : List Entry)
    (from_idx : Nat) (fname : String) (fi : FileInner)
    (root2 : List Entry) (tpKeys : List String) (tpEntries : List Entry) (ipos : Nat)
    (hfp : NPath.parentNE (to_absolute_path s fromP) = some fpp)
    (hfn : NPath.fileNameOf (to_absolute_path s fromP) = some fn)
    (htp : NPath.parentNE (to_absolute_path s toP) = some tpp)
    (htn : NPath.fileNameOf (to_absolute_path s toP) = some tn)
    (hw1 : find_directory_mut s.system_root (toComps fpp) false (time_now s now) =
      Except.ok (root0, fpKeys, fpEntries))
    (hbs : binary_search_by fn fpEntries = SR.ok from_idx)
    (hfile : fpEntries.getD from_idx dummyEntry = Entry.file fname fi)
    (hw2 : find_directory_mut
      (modifyDirEntries root0 fpKeys (fun es => es.eraseIdx from_idx))
      (toComps tpp) true (time_now s now) = Except.ok (root2, tpKeys, tpEntries))
    (hmiss : binary_search_by tn tpEntries = SR.err ipos) :
    base_fs_rename s now fromP toP =
      (none, { s with system_root := modifyDirEntries root2 tpKeys (fun es => es.insertIdx ipos (Entry.file tn fi)) }) := by
  simp only [base_fs_rename, hfp, hfn, hw1, hbs, hfile, htp, htn, hw2, hmiss]

/-- Witness for claim C9: renaming the file /a/f onto /c/d/g where
neither /c nor /c/d exists; the walk creates both directories and the
rename succeeds, leaving /c/d containing the file g. -/
theorem c9_rename_creates_missing_dest_parents_witness :
    binary_search_by "f" [Entry.file "f" ⟨0, 0, [7], 438⟩] = SR.ok 0 ∧
    find_directory_mut
      (modifyDirEntries lostTree ["", "a"] (fun es => es.eraseIdx 0))
      (toComps ⟨true, ["c", "d"]⟩) true 0 =
      Except.ok
        ([Entry.directory "" 0 0
            [Entry.directory "a" 0 0 [],
             Entry.file "b" ⟨0, 0, [], 438⟩,
             Entry.directory "c" 0 0 [Entry.directory "d" 0 0 []]]],
         ["", "c", "d"], []) ∧
    base_fs_rename lostSys 0
      [Comp.root, Comp.normal "a", Comp.normal "f"]
      [Comp.root, Comp.normal "c", Comp.normal "d", Comp.normal "g"] =
      (none, { lostSys with system_root := modifyDirEntries [Entry.directory "" 0 0 [Entry.directory "a" 0 0 [], Entry.file "b" ⟨0, 0, [], 438⟩, Entry.directory "c" 0 0 [Entry.directory "d" 0 0 []]]] ["", "c", "d"] (fun es => es.insertIdx 0 (Entry.file "g" ⟨0, 0, [7], 438⟩)) }) :=
  ⟨by decide, by rfl,
   c9_rename_creates_missing_dest_parents lostSys 0
     [Comp.root, Comp.normal "a", Comp.normal "f"]
     [Comp.root, Comp.normal "c", Comp.normal "d", Comp.normal "g"]
     ⟨true, ["a"]⟩ ⟨true, ["c", "d"]⟩ "f" "g"
     lostTree ["", "a"] [Entry.file "f" ⟨0, 0, [7], 438⟩]
     0 "f" ⟨0, 0, [7], 438⟩
     [Entry.directory "" 0 0
       [Entry.directory "a" 0 0 [],
        Entry.file "b" ⟨0, 0, [], 438⟩,
        Entry.directory "c" 0 0 [Entry.directory "d" 0 0 []]]]
     ["", "c", "d"] [] 0
     (by rfl) (by rfl) (by rfl) (by rfl) (by rfl) (by rfl) (by rfl) (by rfl) (by rfl)⟩

theorem noFollowGo_symlink : ∀ (p : List Comp) (entries : List Entry)
    (acc cp tp : List Comp) (nm : String) (tgt : List Comp),
    noFollowGo entries acc p = NFRes.symlinkHit cp tp nm tgt →
    ∃ k cr mo, 0 < k ∧ k ≤ p.length ∧ cp = acc ++ p.take k ∧
      walkNames entries ((p.take k).map keyOf) = some (Entry.symlink nm tgt cr mo) ∧
      tp = toComps (normalize_path (cp ++ tgt)) := by
  intro p
  induction p with
  | nil => intro entries acc cp tp nm tgt h; simp only [noFollowGo] at h; exact NFRes.noConfusion h
  | cons c rest ih =>
    intro entries acc cp tp nm tgt h
    rcases hbs : binary_search_by (keyOf c) entries with ⟨pos⟩ | ⟨ipos⟩
    · rcases hget : entries.getD pos dummyEntry with ⟨n, fi⟩ | ⟨n, cr, mo, es⟩ | ⟨n, tg, cr, mo⟩
      · by_cases hrest : rest = []
        · simp only [noFollowGo, hbs, hget, if_pos hrest] at h
          exact NFRes.noConfusion h
        · simp only [noFollowGo, hbs, hget, if_neg hrest] at h
          exact NFRes.noConfusion h
      · by_cases hrest : rest = []
        · simp only [noFollowGo, hbs, hget, if_pos hrest] at h
          exact NFRes.noConfusion h
        · simp only [noFollowGo, hbs, hget, if_neg hrest] at h
          obtain ⟨k, cr2, mo2, hk0, hkle, hcp, hwalk, htp⟩ :=
            ih es (acc ++ [c]) cp tp nm tgt h
          refine ⟨k + 1, cr2, mo2, by omega, by simp; omega, ?_, ?_, htp⟩
          · rw [hcp, List.take_succ_cons]
            simp
          · have htk : rest.take k ≠ [] := by
              cases rest with
              | nil => exact absurd rfl hrest
              | cons r rs =>
                cases k with
                | zero => omega
                | succ j => simp
            simp only [List.take_succ_cons, List.map_cons, walkNames, hbs, hget]
            rw [if_neg (by simpa using htk)]
            exact hwalk
      · simp only [noFollowGo, hbs, hget, NFRes.symlinkHit.injEq] at h
        obtain ⟨hcp, htp, hnm, htgt⟩ := h
        subst hnm htgt
        refine ⟨1, cr, mo, by omega, by simp, by rw [← hcp]; simp, ?_, ?_⟩
        · simp only [List.take_succ_cons, List.take_zero, List.map_cons, List.map_nil,
            walkNames, hbs, hget]
          simp
        · rw [← htp, ← hcp]
    · simp only [noFollowGo, hbs] at h
      exact NFRes.noConfusion h

theorem mem_listCollect : ∀ (es : List Entry) (e : Entry) (pk : List String)
    (x : List String × List Comp),
    e ∈ es → x ∈ entryCollect pk e → x ∈ listCollect pk es := by
  intro es
  induction es with
  | nil => intro e pk x hm _; simp at hm
  | cons y ys ih =>
    intro e pk x hm hx
    rcases List.mem_cons.mp hm with h1 | h2
    · subst h1
      simp only [listCollect, List.mem_append]
      exact Or.inl hx
    · simp only [listCollect, List.mem_append]
      exact Or.inr (ih e pk x h2 hx)

theorem walkNames_collect : ∀ (ks : List String) (entries : List Entry)
    (pk : List String) (nm : String) (tgt : List Comp) (cr mo : Nat),
    walkNames entries ks = some (Entry.symlink nm tgt cr mo) →
    (pk ++ ks, tgt) ∈ listCollect pk entries := by
  intro ks
  induction ks with
  | nil => intro entries pk nm tgt cr mo h; simp [walkNames] at h
  | cons k rest ih =>
    intro entries pk nm tgt cr mo h
    rcases hbs : binary_search_by k entries with ⟨pos⟩ | ⟨ipos⟩
    · have hobk := binary_search_by_ok k entries pos hbs
      have hmem := getD_mem entries pos dummyEntry hobk.1
      rcases hget : entries.getD pos dummyEntry with ⟨n, fi⟩ | ⟨n, cr2, mo2, es⟩ | ⟨n, tg, cr2, mo2⟩
      · by_cases hrest : rest = []
        · simp only [walkNames, hbs, hget, if_pos hrest, Option.some.injEq] at h
          exact Entry.noConfusion h
        · simp only [walkNames, hbs, hget, if_neg hrest] at h
          exact Option.noConfusion h
      · have hn : n = k := by
          have := hobk.2
          rw [hget] at this
          exact this
        by_cases hrest : rest = []
        · simp only [walkNames, hbs, hget, if_pos hrest, Option.some.injEq] at h
          exact Entry.noConfusion h
        · simp only [walkNames, hbs, hget, if_neg hrest] at h
          have hrec := ih es (pk ++ [k]) nm tgt cr mo h
          have hsub : ((pk ++ [k]) ++ rest, tgt) ∈ entryCollect pk (Entry.directory n cr2 mo2 es) := by
            simp only [entryCollect, hn]
            exact hrec
          have := mem_listCollect entries (Entry.directory n cr2 mo2 es) pk _
            (hget ▸ hmem) hsub
          rw [List.append_assoc] at this
          simpa using this
      · have hn : n = k := by
          have := hobk.2
          rw [hget] at this
          exact this
        by_cases hrest : rest = []
        · simp only [walkNames, hbs, hget, if_pos hrest, Option.some.injEq,
            Entry.symlink.injEq] at h
          obtain ⟨h1, h2, h3, h4⟩ := h
          subst hrest
          have hx : (pk ++ [k], tgt) ∈ entryCollect pk (Entry.symlink n tg cr2 mo2) := by
            simp [entryCollect, hn, h2]
          exact mem_listCollect entries (Entry.symlink n tg cr2 mo2) pk _
            (hget ▸ hmem) hx
        · simp only [walkNames, hbs, hget, if_neg hrest] at h
          exact Option.noConfusion h
    · simp only [walkNames, hbs] at h
      exact Option.noConfusion h

-- Every target collected from a wellformed tree is free of empty
-- Normal components.
mutual
theorem entryCollect_clean : ∀ (e : Entry) (pk : List String)
    (x : List String × List Comp),
    entryTargetsNE e = true → x ∈ entryCollect pk e → x.2.all compNE = true
  | Entry.file n fi, pk, x, h, hm => by simp [entryCollect] at hm
  | Entry.symlink n tgt cr mo, pk, x, h, hm => by
    simp only [entryCollect, List.mem_singleton] at hm
    subst hm
    simpa [entryTargetsNE] using h
  | Entry.directory n cr mo es, pk, x, h, hm => by
    exact listCollect_clean es (pk ++ [n]) x (by simpa [entryTargetsNE] using h)
      (by simpa [entryCollect] using hm)
theorem listCollect_clean : ∀ (es : List Entry) (pk : List String)
    (x : List String × List Comp),
    treeTargetsNE es = true → x ∈ listCollect pk es → x.2.all compNE = true
  | [], pk, x, h, hm => by simp [listCollect] at hm
  | e :: rest, pk, x, h, hm => by
    simp only [treeTargetsNE, Bool.and_eq_true] at h
    simp only [listCollect, List.mem_append] at hm
    rcases hm with hm | hm
    · exact entryCollect_clean e pk x h.1 hm
    · exact listCollect_clean rest pk x h.2 hm
end

-- The collection has one element per symlink node.
mutual
theorem entryCollect_length : ∀ (e : Entry) (pk : List String),
    (entryCollect pk e).length = symCountE e
  | Entry.file n fi, pk => by simp [entryCollect, symCountE]
  | Entry.symlink n tgt cr mo, pk => by simp [entryCollect, symCountE]
  | Entry.directory n cr mo es, pk => by
    simp only [entryCollect, symCountE]
    exact listCollect_length es (pk ++ [n])
theorem listCollect_length : ∀ (es : List Entry) (pk : List String),
    (listCollect pk es).length = symCountL es
  | [], pk => by simp [listCollect, symCountL]
  | e :: rest, pk => by
    simp only [listCollect, symCountL, List.length_append]
    rw [entryCollect_length e pk, listCollect_length rest pk]
end

theorem tailNE_take : ∀ (l : List Comp) (k : Nat),
    tailNE l = true → tailNE (l.take k) = true := by
  intro l
  induction l with
  | nil => intro k _; simp [tailNE]
  | cons c rest ih =>
    intro k h
    cases c with
    | normal s =>
      cases k with
      | zero => simp [tailNE]
      | succ j =>
        simp only [tailNE, Bool.and_eq_true] at h
        simp only [List.take_succ_cons, tailNE, Bool.and_eq_true]
        exact ⟨h.1, ih j h.2⟩
    | root => simp [tailNE] at h
    | cur => simp [tailNE] at h
    | parent => simp [tailNE] at h

theorem canonNE_of_tailNE (l : List Comp) (h : tailNE l = true) : canonNE l = true := by
  cases l with
  | nil => simp [canonNE, tailNE]
  | cons c rest =>
    cases c with
    | root => simp [tailNE] at h
    | cur => exact h
    | parent => exact h
    | normal s => exact h

theorem canonNE_take (p : List Comp) (k : Nat) (h : canonNE p = true) :
    canonNE (p.take k) = true := by
  cases p with
  | nil => simp [canonNE, tailNE]
  | cons c rest =>
    cases c with
    | root =>
      cases k with
      | zero => simp [canonNE, tailNE]
      | succ j =>
        simp only [canonNE] at h
        simp only [List.take_succ_cons, canonNE]
        exact tailNE_take rest j h
    | cur => simp [canonNE, tailNE] at h
    | parent => simp [canonNE, tailNE] at h
    | normal s =>
      cases k with
      | zero => simp [canonNE, tailNE]
      | succ j =>
        simp only [canonNE, tailNE, Bool.and_eq_true] at h
        apply canonNE_of_tailNE
        simp only [List.take_succ_cons, tailNE, Bool.and_eq_true]
        exact ⟨h.1, tailNE_take rest j h.2⟩

theorem tailNE_mem : ∀ (l : List Comp) (s : String),
    tailNE l = true → Comp.normal s ∈ l → s ≠ "" := by
  intro l
  induction l with
  | nil => intro s _ hm; simp at hm
  | cons c rest ih =>
    intro s h hm
    cases c with
    | normal t =>
      simp only [tailNE, Bool.and_eq_true] at h
      rcases List.mem_cons.mp hm with h1 | h2
      · have : t = s := by injection h1.symm
        subst this
        simpa using h.1
      · exact ih s h.2 h2
    | root => simp [tailNE] at h
    | cur => simp [tailNE] at h
    | parent => simp [tailNE] at h

theorem canonNE_mem (p : List Comp) (s : String)
    (h : canonNE p = true) (hm : Comp.normal s ∈ p) : s ≠ "" := by
  cases p with
  | nil => simp at hm
  | cons c rest =>
    cases c with
    | root =>
      simp only [canonNE] at h
      rcases List.mem_cons.mp hm with h1 | h2
      · exact Comp.noConfusion h1
      · exact tailNE_mem rest s h h2
    | cur => simp [canonNE, tailNE] at h
    | parent => simp [canonNE, tailNE] at h
    | normal t => exact tailNE_mem _ s h hm

theorem map_keyOf_normals : ∀ (l : List Comp),
    tailNE l = true → (l.map keyOf).map Comp.normal = l := by
  intro l
  induction l with
  | nil => intro _; simp
  | cons c rest ih =>
    intro h
    cases c with
    | normal s =>
      simp only [tailNE, Bool.and_eq_true] at h
      simp only [List.map_cons, keyOf]
      rw [ih h.2]
    | root => simp [tailNE] at h
    | cur => simp [tailNE] at h
    | parent => simp [tailNE] at h

theorem compsOfKeys_keys (cp : List Comp) (h : canonNE cp = true) :
    compsOfKeys (cp.map keyOf) = cp := by
  cases cp with
  | nil => simp [compsOfKeys]
  | cons c rest =>
    cases c with
    | root =>
      simp only [canonNE] at h
      simp only [List.map_cons, keyOf, compsOfKeys, reduceIte]
      rw [map_keyOf_normals rest h]
    | cur => simp [canonNE, tailNE] at h
    | parent => simp [canonNE, tailNE] at h
    | normal s =>
      simp only [canonNE, tailNE, Bool.and_eq_true] at h
      simp only [List.map_cons, keyOf, compsOfKeys]
      rw [if_neg (by simpa using h.1), map_keyOf_normals rest h.2]

theorem tailNE_map_normal : ∀ (l : List String),
    (∀ s ∈ l, s ≠ "") → tailNE (l.map Comp.normal) = true := by
  intro l
  induction l with
  | nil => intro _; simp [tailNE]
  | cons s rest ih =>
    intro h
    simp only [List.map_cons, tailNE, Bool.and_eq_true]
    exact ⟨by simpa using h s (by simp), ih (fun t ht => h t (List.mem_cons_of_mem s ht))⟩

theorem canonNE_toComps (np : NPath) (h : ∀ s ∈ np.comps, s ≠ "") :
    canonNE (toComps np) = true := by
  rcases np with ⟨abs, comps⟩
  cases abs
  · simp only [toComps]
    simp only [Bool.false_eq_true, if_false, List.nil_append]
    exact canonNE_of_tailNE _ (tailNE_map_normal comps h)
  · simp only [toComps, if_true, List.cons_append, List.nil_append, canonNE]
    exact tailNE_map_normal comps h

theorem canonNE_target (cp tgt : List Comp) (hcp : canonNE cp = true)
    (htgt : tgt.all compNE = true) :
    canonNE (toComps (normalize_path (cp ++ tgt))) = true := by
  apply canonNE_toComps
  intro s hs
  have hmem := normalize_strings (cp ++ tgt) ⟨false, []⟩ s hs
  simp only [List.not_mem_nil, false_or, List.mem_append] at hmem
  rcases hmem with h1 | h2
  · exact canonNE_mem cp s hcp h1
  · have := List.all_eq_true.mp htgt _ h2
    simpa [compNE] using this

theorem filter_length_mono {α : Type} : ∀ (T : List α) (pb qb : α → Bool),
    (∀ x, pb x = true → qb x = true) →
    (T.filter pb).length ≤ (T.filter qb).length := by
  intro T pb qb h
  induction T with
  | nil => simp
  | cons y ys ih =>
    by_cases hy : pb y = true
    · rw [List.filter_cons_of_pos hy, List.filter_cons_of_pos (h y hy)]
      simpa using ih
    · rw [List.filter_cons_of_neg (by simpa using hy)]
      rcases hq : qb y with _ | _
      · rw [List.filter_cons_of_neg (by simp [hq])]
        exact ih
      · rw [List.filter_cons_of_pos hq]
        simp only [List.length_cons]
        omega

theorem filter_length_strict {α : Type} : ∀ (T : List α) (pb qb : α → Bool),
    (∀ x, pb x = true → qb x = true) →
    ∀ x, x ∈ T → qb x = true → pb x = false →
    (T.filter pb).length < (T.filter qb).length := by
  intro T pb qb h
  induction T with
  | nil => intro x hm _ _; simp at hm
  | cons y ys ih =>
    intro x hm hq hp
    rcases List.mem_cons.mp hm with h1 | h2
    · subst h1
      rw [List.filter_cons_of_neg (by simp [hp]), List.filter_cons_of_pos hq]
      simp only [List.length_cons]
      have := filter_length_mono ys pb qb h
      omega
    · have hlt := ih x h2 hq hp
      by_cases hy : pb y = true
      · rw [List.filter_cons_of_pos hy, List.filter_cons_of_pos (h y hy)]
        simpa using hlt
      · rw [List.filter_cons_of_neg (by simpa using hy)]
        rcases hqy : qb y with _ | _
        · rw [List.filter_cons_of_neg (by simp [hqy])]
          exact hlt
        · rw [List.filter_cons_of_pos hqy]
          simp only [List.length_cons]
          omega

-- Every symlink hit of the no-follow walk restarts with a target path
-- that is one of the tree's candidate targets, and that path is again
-- canonical.
theorem symlinkHit_cand (root : List Entry) (p cp tp : List Comp) (nm : String)
    (tgt : List Comp) (htree : treeTargetsNE root = true) (hp : canonNE p = true)
    (h : lookup_entry_detail_no_follow root p = NFRes.symlinkHit cp tp nm tgt) :
    tp ∈ candTargets root ∧ canonNE tp = true := by
  by_cases hpe : p = []
  · simp only [lookup_entry_detail_no_follow, if_pos hpe] at h
    exact NFRes.noConfusion h
  · simp only [lookup_entry_detail_no_follow, if_neg hpe] at h
    obtain ⟨k, cr, mo, hk0, hkle, hcp, hwalk, htp⟩ :=
      noFollowGo_symlink p root [] cp tp nm tgt h
    simp only [List.nil_append] at hcp
    have hcoll := walkNames_collect ((p.take k).map keyOf) root [] nm tgt cr mo hwalk
    simp only [List.nil_append] at hcoll
    have hcanon : canonNE (p.take k) = true := canonNE_take p k hp
    have hclean : tgt.all compNE = true :=
      listCollect_clean root [] ((p.take k).map keyOf, tgt) htree hcoll
    constructor
    · have heq : tp = toComps (normalize_path (compsOfKeys ((p.take k).map keyOf) ++ tgt)) := by
        rw [compsOfKeys_keys (p.take k) hcanon, ← hcp]
        exact htp
      rw [heq]
      simp only [candTargets]
      exact List.mem_map_of_mem _ hcoll
    · rw [htp, hcp]
      exact canonNE_target (p.take k) tgt hcanon hclean

-- The fuel induction: if the fuel exceeds the number of candidate
-- targets not yet in the visited set, the follow loop returns a result.
theorem lookup_go_isSome : ∀ (fuel : Nat) (root : List Entry)
    (seen : List (List Comp)) (p : List Comp),
    treeTargetsNE root = true → canonNE p = true →
    ((candTargets root).filter (fun t => decide (t ∉ seen))).length + 1 ≤ fuel →
    (lookup_entry_detail_go root fuel seen p).isSome = true := by
  intro fuel
  induction fuel with
  | zero => intro root seen p _ _ hle; exact absurd hle (by omega)
  | succ f ih =>
    intro root seen p htree hp hle
    rcases hcase : lookup_entry_detail_no_follow root p with ⟨e⟩ | ⟨q⟩ | ⟨cp, tp, nm, tgt⟩ | ⟨q, e⟩
    · simp [lookup_entry_detail_go, hcase]
    · simp [lookup_entry_detail_go, hcase]
    · have hcand := symlinkHit_cand root p cp tp nm tgt htree hp hcase
      by_cases hmem : tp ∈ (if seen = [] then [cp] else seen)
      · simp only [lookup_entry_detail_go, hcase, if_pos hmem, Option.isSome_some]
      · simp only [lookup_entry_detail_go, hcase, if_neg hmem]
        apply ih root (tp :: (if seen = [] then [cp] else seen)) tp htree hcand.2
        have hts : tp ∉ seen := by
          by_cases hse : seen = []
          · rw [hse]; simp
          · rw [if_neg hse] at hmem; exact hmem
        have himp : ∀ x, (fun t => decide (t ∉ tp :: (if seen = [] then [cp] else seen))) x = true →
            (fun t => decide (t ∉ seen)) x = true := by
          intro x hx
          simp only [decide_eq_true_eq, List.mem_cons] at hx ⊢
          intro hxs
          apply hx
          right
          by_cases hse : seen = []
          · exact absurd (hse ▸ hxs) (List.not_mem_nil x)
          · rw [if_neg hse]
            exact hxs
        have hstrict := filter_length_strict (candTargets root)
          (fun t => decide (t ∉ tp :: (if seen = [] then [cp] else seen)))
          (fun t => decide (t ∉ seen)) himp tp hcand.1
          (by simp [hts]) (by simp)
        omega
    · simp [lookup_entry_detail_go, hcase]

/-- C3: Follow-resolution terminates.  The Rust loop of
lookup_entry_detail has no iteration bound, but on every tree whose
symlink targets are free of empty Normal components (the only trees
Path::components can hand the code) and every canonical starting path,
lookup_fuel root = symCountL root + 2 iterations provably suffice for
the loop to return a result: every path inserted into the visited set
is one of the symCountL root candidate targets, each non-final
iteration consumes a fresh one, and a repeated target path produces
the symlink-loop error rather than an endless loop.  In particular the
model lookup_entry_detail never falls back to its fuel default, and on
a cyclic chain the returned result is the loop error. -/
theorem c3_lookup_entry_detail_terminates (root : List Entry) (p : List Comp)
    (htree : treeTargetsNE root = true) (hp : canonNE p = true) :
    (lookup_entry_detail_go root (lookup_fuel root) [] p).isSome = true := by
  apply lookup_go_isSome (lookup_fuel root) root [] p htree hp
  have h1 : ((candTargets root).filter
      (fun t => decide (t ∉ ([] : List (List Comp))))).length
      = (candTargets root).length := by
    simp
  have h2 : (candTargets root).length = symCountL root := by
    simp only [candTargets, List.length_map]
    exact listCollect_length root []
  rw [h1, h2]
  simp only [lookup_fuel]
  omega

theorem c3_lookup_entry_detail_terminates_witness :
    treeTargetsNE cycleTree = true ∧
    canonNE [Comp.root, Comp.normal "x"] = true ∧
    (lookup_entry_detail_go cycleTree (lookup_fuel cycleTree) []
      [Comp.root, Comp.normal "x"]).isSome = true :=
  ⟨by rfl, by rfl,
   c3_lookup_entry_detail_terminates cycleTree [Comp.root, Comp.normal "x"]
     (by rfl) (by rfl)⟩

end InMemFs
